import Mathlib

/-!
Verification of the tiled wave-function-collapse solver in `src/lib.rs`
(`SimpleTiled` and its helpers).

Embedding conventions:
* `f64` values are idealized as an arbitrary linear ordered field `F`
  (instantiated with `ℚ` for concrete evaluations and with `ℝ` where the
  claim talks about `ln`); `f64::ln` is passed around as a function
  `fln : F → F`.
* `Vec` fields of the solver state are embedded as total functions from
  indices (out-of-range reads in Rust would panic; all accesses stay in
  range in the states considered) or as `List`s where the length matters.
* Fallible constructor code (`?`-propagation and the panics of
  `HashMap`/`Vec` indexing or `as_bytes()[0]`) returns `Option`.
* The ChaCha8 RNG is an external crate; it is modelled as a deterministic
  stream of field draws derived from the 64-bit seed, with the index of
  the next draw threaded explicitly.
-/

namespace TileCollapse

/-- Direction tables from `lib.rs`: `OPPOSITE = [2, 3, 0, 1]`. -/
def OPPOSITE (d : Nat) : Nat := [2, 3, 0, 1].getD d 0

/-- `DX = [-1, 0, 1, 0]`. -/
def DX (d : Nat) : Int := [-1, 0, 1, 0].getD d 0

/-- `DY = [0, 1, 0, -1]`. -/
def DY (d : Nat) : Int := [0, 1, 0, -1].getD d 0

/-- The three cell-selection heuristics. -/
inductive Heuristic where
  | Entropy
  | MRV
  | ScanLine
deriving DecidableEq

/-- A declared neighbor pair (`left`/`right` descriptors, `"stem"` or `"stem k"`). -/
structure Neighbor where
  left : String
  right : String

section Model

variable (F : Type) [LinearOrderedField F]

/-- A declared source tile: name, symmetry class string, optional weight.
The image payload is external I/O and is not part of the solver model. -/
structure Tile where
  name : String
  symmetry : String
  weight : Option F

/-- The parsed configuration consumed by `SimpleTiled::new`. -/
structure Config where
  tiles : List (Tile F)
  neighbors : List Neighbor

/-- Cardinality of a symmetry class (first byte of the symmetry string). -/
def symCard (c : Char) : Nat :=
  if c = 'L' then 4
  else if c = 'T' then 4
  else if c = 'I' then 2
  else if c = '\\' then 2
  else if c = 'F' then 8
  else 1

/-- The rotation action `a` of a symmetry class.  All call sites use
`0 ≤ i`, where Rust's `i32` remainder agrees with `Int.emod`. -/
def symA (c : Char) (i : Int) : Int :=
  if c = 'L' then (i + 1) % 4
  else if c = 'T' then (i + 1) % 4
  else if c = 'I' then 1 - i
  else if c = '\\' then 1 - i
  else if c = 'F' then (if i < 4 then (i + 1) % 4 else 4 + (i - 1) % 4)
  else i

/-- The reflection action `b` of a symmetry class. -/
def symB (c : Char) (i : Int) : Int :=
  if c = 'L' then (if i % 2 = 0 then i + 1 else i - 1)
  else if c = 'T' then (if i % 2 = 0 then i else 4 - i)
  else if c = 'I' then i
  else if c = '\\' then 1 - i
  else if c = 'F' then (if i < 4 then i + 4 else i - 4)
  else i

/-- One row of the action table for local variant `i` of a tile whose
block starts at `t`:
`[i, a i, a² i, a³ i, b i, b (a i), b (a² i), b (a³ i)]` offset by `t`. -/
def actionRow (c : Char) (t i : Int) : List Int :=
  [i + t, symA c i + t, symA c (symA c i) + t, symA c (symA c (symA c i)) + t,
   symB c i + t, symB c (symA c i) + t, symB c (symA c (symA c i)) + t,
   symB c (symA c (symA c (symA c i))) + t]

/-- External `Path::file_stem`, modelled as the identity on nonempty names
(the configurations in scope use bare names without directory or
extension); `None` on the empty string mirrors the `?`-failure. -/
def fileStem (s : List Char) : Option (List Char) :=
  if s = [] then none else some s

/-- One iteration of the tile-expansion loop in `new`:
extends the action table by `cardinality` rows, records the
first-occurrence entry, and pushes one weight per oriented variant
(rotated/flipped clones keep the source tile's weight). -/
def expandTile (acc : List (List Int) × List (List Char × Nat) × List F) (tile : Tile F) :
    Option (List (List Int) × List (List Char × Nat) × List F) :=
  match tile.symmetry.data with
  | [] => none
  | c :: _ =>
    match fileStem tile.name.data with
    | none => none
    | some stem =>
      let action := acc.1
      let t := action.length
      let card := symCard c
      some (action ++ (List.range card).map (fun i => actionRow c (Int.ofNat t) (Int.ofNat i)),
            (stem, t) :: acc.2.1,
            acc.2.2 ++ List.replicate card (tile.weight.getD 1))

/-- The whole tile-expansion loop of `new`. -/
def expandTiles (tiles : List (Tile F)) :
    Option (List (List Int) × List (List Char × Nat) × List F) :=
  List.foldlM (expandTile F) ([], [], []) tiles

/-- `first_occurence` lookup (`HashMap` insertion overwrites, so the most
recent entry — the head of our list — wins). -/
def lookupFo (fo : List (List Char × Nat)) (k : List Char) : Option Nat :=
  match fo with
  | [] => none
  | (k', v) :: rest => if k = k' then some v else lookupFo rest k

/-- `str::split(' ')` on the descriptor (an empty input yields one empty
part, as in Rust). -/
def splitSpaces (cs : List Char) : List (List Char) :=
  match cs with
  | [] => [[]]
  | c :: rest =>
    let r := splitSpaces rest
    if c = ' ' then [] :: r
    else
      match r with
      | [] => [[c]]
      | w :: ws => (c :: w) :: ws

/-- `str::parse::<usize>` on decimal digits. -/
def parseDigits (cs : List Char) : Option Nat :=
  if cs = [] then none
  else List.foldlM
    (fun acc c => if c.isDigit then some (acc * 10 + (c.toNat - '0'.toNat)) else none)
    0 cs

/-- `action[v][j]` followed by conversion to `usize`; `none` models the
panics/`?`-failures on an out-of-range index or a negative entry. -/
def actionVar (action : List (List Int)) (v j : Nat) : Option Nat :=
  match action.get? v with
  | none => none
  | some row =>
    match row.get? j with
    | none => none
    | some e => e.toNat'

/-- Resolve a neighbor descriptor `"stem"`/`"stem k"` to a variant index,
as in the neighbor loop of `new`. -/
def resolveDescriptor (action : List (List Int)) (fo : List (List Char × Nat))
    (desc : String) : Option Nat :=
  match splitSpaces desc.data with
  | [] => none
  | p :: rest =>
    let orient? : Option Nat :=
      match rest with
      | [] => some 0
      | q :: _ => parseDigits q
    match orient?, lookupFo fo p with
    | some orient, some base => actionVar action base orient
    | _, _ => none

/-- Set one entry of the dense propagator (embedded as a total boolean
function over `(d, t1, t2)`). -/
def denseSet (g : Nat → Nat → Nat → Bool) (d a b : Nat) : Nat → Nat → Nat → Bool :=
  fun d' a' b' => if d' = d ∧ a' = a ∧ b' = b then true else g d' a' b'

/-- Process one neighbor pair: the four `d = 0` writes and the four
`d = 1` writes of the dense propagator, in source order. -/
def addNeighbor (action : List (List Int)) (fo : List (List Char × Nat))
    (g : Nat → Nat → Nat → Bool) (nb : Neighbor) : Option (Nat → Nat → Nat → Bool) :=
  match resolveDescriptor action fo nb.left, resolveDescriptor action fo nb.right with
  | some left, some right =>
    (actionVar action left 1).bind fun down =>
    (actionVar action right 1).bind fun up =>
    (actionVar action right 6).bind fun r6 =>
    (actionVar action left 6).bind fun l6 =>
    (actionVar action left 4).bind fun l4 =>
    (actionVar action right 4).bind fun r4 =>
    (actionVar action left 2).bind fun l2 =>
    (actionVar action right 2).bind fun r2 =>
    (actionVar action down 6).bind fun d6 =>
    (actionVar action up 6).bind fun u6 =>
    (actionVar action up 4).bind fun u4 =>
    (actionVar action down 4).bind fun d4 =>
    (actionVar action down 2).bind fun d2 =>
    (actionVar action up 2).bind fun u2 =>
    some (denseSet (denseSet (denseSet (denseSet
          (denseSet (denseSet (denseSet (denseSet g
            0 right left) 0 r6 l6) 0 l4 r4) 0 l2 r2)
            1 up down) 1 d6 u6) 1 u4 d4) 1 d2 u2)
  | _, _ => none

/-- The whole neighbor loop of `new` (directions 0 and 1 only). -/
def buildDense (action : List (List Int)) (fo : List (List Char × Nat))
    (neighbors : List Neighbor) : Option (Nat → Nat → Nat → Bool) :=
  List.foldlM (addNeighbor action fo) (fun _ _ _ => false) neighbors

/-- The dense propagator over all four directions: directions 2 and 3 are
the in-range transposes of directions 0 and 1
(`dense[2][t2][t1] = dense[0][t1][t2]`, etc.). -/
def denseFull (g : Nat → Nat → Nat → Bool) (T : Nat) : Nat → Nat → Nat → Bool :=
  fun d t1 t2 =>
    if d < 2 then g d t1 t2
    else if t1 < T ∧ t2 < T then g (d - 2) t2 t1
    else false

/-- Sparsification: `propagator[d][t1]` lists, in increasing order, every
`t2 < T` with `dense[d][t1][t2]` set. -/
def sparsify (g : Nat → Nat → Nat → Bool) (T : Nat) : Nat → Nat → List Nat :=
  fun d t1 =>
    if d < 4 ∧ t1 < T then (List.range T).filter (fun t2 => denseFull g T d t1 t2)
    else []

/-- Sum of a weight list (`tiles.iter().map(|t| t.weight).sum()`). -/
def sumWeights (ws : List F) : F := ws.foldl (fun acc w => acc + w) 0

/-- Sum of `w * ln w` over a weight list. -/
def sumWLW (fln : F → F) (ws : List F) : F :=
  ws.foldl (fun acc w => acc + w * fln w) 0

/-- The solver state (`struct SimpleTiled`), minus the external-I/O
fields (pixel payloads, `tile_names`, `tile_size`). -/
structure SimpleTiled where
  tiles : List F
  wave : Nat → Nat → Bool
  propagator : Nat → Nat → List Nat
  compatible : Nat → Nat → Nat → Int
  observed : Nat → Option Nat
  stack : List (Nat × Nat)
  observed_so_far : Nat
  width : Nat
  height : Nat
  num_tiles : Nat
  n : Nat
  periodic : Bool
  heuristic : Heuristic
  weight_log_weights : List F
  distribution : List F
  sums_of_ones : Nat → Int
  sum_of_weights : F
  sum_of_weight_log_weights : F
  starting_entropy : F
  sums_of_weights : Nat → F
  sums_of_weight_log_weights : Nat → F
  entropies : Nat → F

/-- `SimpleTiled::new`: tile expansion, propagator construction, and the
initial field values.  Note that `weight_log_weights` is created as
`vec![0.; num_tiles]` and — exactly as in the source — never written
again anywhere in the program. -/
def mkSolver (fln : F → F) (cfg : Config F) (width height : Nat)
    (periodic : Bool) (heuristic : Heuristic) : Option (SimpleTiled F) :=
  if cfg.tiles.isEmpty then none
  else if cfg.neighbors.isEmpty then none
  else
    match expandTiles F cfg.tiles with
    | none => none
    | some (action, fo, weights) =>
      let num_tiles := action.length
      match buildDense action fo cfg.neighbors with
      | none => none
      | some g =>
        let sow := sumWeights F weights
        let sowlw := sumWLW F fln weights
        some
          { tiles := weights
            wave := fun _ _ => true
            propagator := sparsify g num_tiles
            compatible := fun _ _ _ => 0
            observed := fun _ => none
            stack := []
            observed_so_far := 0
            width := width
            height := height
            num_tiles := num_tiles
            n := 1
            periodic := periodic
            heuristic := heuristic
            weight_log_weights := List.replicate num_tiles 0
            distribution := List.replicate num_tiles 0
            sums_of_ones := fun _ => 0
            sum_of_weights := sow
            sum_of_weight_log_weights := sowlw
            starting_entropy := fln sow - sowlw / sow
            sums_of_weights := fun _ => 0
            sums_of_weight_log_weights := fun _ => 0
            entropies := fun _ => fln sow - sowlw / sow }

/-- `SimpleTiled::clear`: reset every per-cell table.  The loop runs over
`0..wave.len()` and `0..num_tiles`; `wave.len() = width * height` in every
constructed state.  `sums_of_ones` is reset to `tiles.len()` (which equals
`num_tiles` for constructed states), and — exactly as in the source — the
ban stack is *not* touched. -/
def clear (s : SimpleTiled F) : SimpleTiled F :=
  { s with
    wave := fun i t =>
      if i < s.width * s.height ∧ t < s.num_tiles then true else s.wave i t
    compatible := fun i t d =>
      if i < s.width * s.height ∧ t < s.num_tiles ∧ d < 4 then
        ((s.propagator (OPPOSITE d) t).length : Int)
      else s.compatible i t d
    sums_of_ones := fun i =>
      if i < s.width * s.height then (s.tiles.length : Int) else s.sums_of_ones i
    sums_of_weights := fun i =>
      if i < s.width * s.height then s.sum_of_weights else s.sums_of_weights i
    sums_of_weight_log_weights := fun i =>
      if i < s.width * s.height then s.sum_of_weight_log_weights
      else s.sums_of_weight_log_weights i
    entropies := fun i =>
      if i < s.width * s.height then s.starting_entropy else s.entropies i
    observed := fun i =>
      if i < s.width * s.height then none else s.observed i
    observed_so_far := 0 }

/-- `SimpleTiled::ban(i, t)`: kill the variant, zero its compatibility
counters, push it on the stack, and update the per-cell sums and entropy.
The entropy is recomputed from the *updated* sums; note the subtraction of
`weight_log_weights[t]`, which is always `0` in this program. -/
def ban (fln : F → F) (s : SimpleTiled F) (i t : Nat) : SimpleTiled F :=
  let sow := s.sums_of_weights i - s.tiles.getD t 0
  let sowlw := s.sums_of_weight_log_weights i - s.weight_log_weights.getD t 0
  { s with
    wave := fun i' t' => if i' = i ∧ t' = t then false else s.wave i' t'
    compatible := fun i' t' d => if i' = i ∧ t' = t then 0 else s.compatible i' t' d
    stack := (i, t) :: s.stack
    sums_of_ones := fun i' => if i' = i then s.sums_of_ones i - 1 else s.sums_of_ones i'
    sums_of_weights := fun i' => if i' = i then sow else s.sums_of_weights i'
    sums_of_weight_log_weights := fun i' =>
      if i' = i then sowlw else s.sums_of_weight_log_weights i'
    entropies := fun i' => if i' = i then fln sow - sowlw / sow else s.entropies i' }

/-- The seeded RNG, modelled as a stream of field draws plus the index of
the next draw. -/
structure Rng where
  stream : Nat → F
  idx : Nat

/-- `rng.gen::<f64>()`: the next draw. -/
def Rng.gen (r : Rng F) : F × Rng F := (r.stream r.idx, ⟨r.stream, r.idx + 1⟩)

/-- The external ChaCha8 generator seeded from a 64-bit seed, modelled as
a deterministic stream of values in `[0, 1)` depending only on the seed. -/
def chachaStream (seed : Nat) : Nat → F :=
  fun k => (1 : F) / ((seed : F) + (k : F) + 2)

/-- The edge-skip test shared by all three heuristics in
`next_unobserved_node`:
`!periodic && (i % width + n > width || i / width + n > height)`. -/
def skipCell (s : SimpleTiled F) (i : Nat) : Bool :=
  !s.periodic && (decide (i % s.width + s.n > s.width)
    || decide (i / s.width + s.n > s.height))

/-- The ScanLine loop: first non-skipped cell with more than one live
variant, recording `observed_so_far = i + 1`. -/
def scanLoop (s : SimpleTiled F) : List Nat → Option Nat × SimpleTiled F
  | [] => (none, s)
  | i :: rest =>
    if skipCell F s i then scanLoop s rest
    else if 1 < s.sums_of_ones i then (some i, { s with observed_so_far := i + 1 })
    else scanLoop s rest

/-- The ranking value used by the Entropy/MRV branch of
`next_unobserved_node`: `entropies[i]` under Entropy and
`sums_of_ones[i] as f64` under MRV (the `let entropy` of the source). -/
def rankKey (s : SimpleTiled F) (i : Nat) : F :=
  if s.heuristic = Heuristic.Entropy then s.entropies i
  else ((s.sums_of_ones i : Int) : F)

/-- The Entropy/MRV loop: running minimum starting from the `10_000.0`
sentinel; a noise draw is consumed only when `entropy ≤ min`. -/
def entropyLoop (s : SimpleTiled F) :
    List Nat → F → Option Nat → Rng F → Option Nat × Rng F
  | [], _, argmin, rng => (argmin, rng)
  | i :: rest, min, argmin, rng =>
    if skipCell F s i then entropyLoop s rest min argmin rng
    else
      let entropy : F := rankKey F s i
      if 1 < s.sums_of_ones i ∧ entropy ≤ min then
        let draw := Rng.gen F rng
        let noise := (1 / 1000000 : F) * draw.1
        if entropy + noise < min then
          entropyLoop s rest (entropy + noise) (some i) draw.2
        else entropyLoop s rest min argmin draw.2
      else entropyLoop s rest min argmin rng

/-- `SimpleTiled::next_unobserved_node`.  ScanLine iterates
`observed_so_far..wave.len()`; Entropy/MRV iterate over all of
`sums_of_ones` (length `width * height`). -/
def next_unobserved_node (s : SimpleTiled F) (rng : Rng F) :
    Option Nat × SimpleTiled F × Rng F :=
  if s.heuristic = Heuristic.ScanLine then
    let r := scanLoop F s
      (List.range' s.observed_so_far (s.width * s.height - s.observed_so_far))
    (r.1, r.2, rng)
  else
    let r := entropyLoop F s (List.range (s.width * s.height)) 10000 none rng
    (r.1, s, r.2)

/-- The scan of `random_from_distr`: first index whose running inclusive
sum reaches the threshold. -/
def rfdLoop (threshold : F) : List F → F → Nat → Option Nat
  | [], _, _ => none
  | w :: ws, acc, i =>
    let acc' := acc + w
    if threshold ≤ acc' then some i else rfdLoop threshold ws acc' (i + 1)

/-- `random_from_distr(weights, r)`: least index whose inclusive running
sum is `≥ r * sum`, and `0` if no index qualifies. -/
def random_from_distr (weights : List F) (r : F) : Nat :=
  let sum := weights.foldl (fun acc w => acc + w) 0
  (rfdLoop F (r * sum) weights 0 0).getD 0

/-- The ban loop of `observe`: ban every `t` with
`wave[node][t] != (t == r)` (note: this bans the sampled `r` itself when
`wave[node][r]` is false). -/
def observeLoop (fln : F → F) (r node : Nat) :
    SimpleTiled F → List Nat → SimpleTiled F
  | s, [] => s
  | s, t :: rest =>
    if s.wave node t != decide (t = r) then
      observeLoop fln r node (ban F fln s node t) rest
    else observeLoop fln r node s rest

/-- The distribution written by `observe`: `w_t` for live variants, `0`
for dead ones (the zip in the source covers all `num_tiles` indices). -/
def obsDist (s : SimpleTiled F) (node : Nat) : List F :=
  (List.range s.num_tiles).map
    (fun t => if s.wave node t then s.tiles.getD t 0 else (0 : F))

/-- `SimpleTiled::observe(node)`: fill `distribution` with the live
weights, draw, sample via `random_from_distr`, and run the ban loop. -/
def observe (fln : F → F) (s : SimpleTiled F) (node : Nat) (rng : Rng F) :
    SimpleTiled F × Rng F :=
  let dist := obsDist F s node
  let s1 := { s with distribution := dist }
  let draw := Rng.gen F rng
  let r := random_from_distr F dist draw.1
  (observeLoop F fln r node s1 (List.range s.num_tiles), draw.2)

/-- Inclusive running sum: `runningSum ws k = ws[0] + ⋯ + ws[k]` (the
"prefix sum up to index k" of the spec). -/
def runningSum : List F → Nat → F
  | [], _ => 0
  | w :: _, 0 => w
  | w :: ws, k + 1 => w + runningSum ws k

/-- One iteration of the decrement pass of `propagate`: decrement
`compatible[i2][t2][d]` and record `t2` in the pending ban list when the
counter reached exactly zero.  Note the test is `== 0` only — the wave
bit is not consulted. -/
def decStep (i2 d : Nat) (acc : SimpleTiled F × List Nat) (t2 : Nat) :
    SimpleTiled F × List Nat :=
  let c := acc.1.compatible i2 t2 d - 1
  ({ acc.1 with
     compatible := fun i' t' d' =>
       if i' = i2 ∧ t' = t2 ∧ d' = d then c else acc.1.compatible i' t' d' },
   if c = 0 then acc.2 ++ [t2] else acc.2)

/-- One direction `d` of the propagation step for popped `(i1, t1)` at
footprint `(x1, y1)`: boundary skip, wrap, the decrement pass over
`propagator[d][t1]` collecting the counters that reached zero, then the
bans. -/
def propagateDir (fln : F → F) (s : SimpleTiled F) (t1 : Nat) (x1 y1 : Int)
    (d : Nat) : SimpleTiled F :=
  let width := (s.width : Int)
  let height := (s.height : Int)
  let x2 := x1 + DX d
  let y2 := y1 + DY d
  if !s.periodic ∧ (x2 < 0 ∨ y2 < 0 ∨ x2.toNat + s.n > s.width ∨ y2.toNat + s.n > s.height)
  then s
  else
    let x2 := if x2 < 0 then x2 + width else if width ≤ x2 then x2 - width else x2
    let y2 := if y2 < 0 then y2 + height else if height ≤ y2 then y2 - height else y2
    let i2 := (x2 + y2 * width).toNat
    let dec := (s.propagator d t1).foldl (decStep F i2 d) (s, [])
    dec.2.foldl (fun sc t2 => ban F fln sc i2 t2) dec.1

/-- The `while let Some((i1, t1)) = stack.pop()` loop of `propagate`,
with explicit fuel.  Each pop consumes one unit; `propagate` supplies
more fuel than the loop can ever use (each pair is pushed at most once
after the initial stack, since a ban zeroes all four of its counters and
the push test requires a counter to be exactly 1 before the decrement). -/
def propagateGo (fln : F → F) : Nat → SimpleTiled F → SimpleTiled F
  | 0, s => s
  | fuel + 1, s =>
    match s.stack with
    | [] => s
    | (i1, t1) :: rest =>
      let s0 := { s with stack := rest }
      let x1 := ((i1 % s.width : Nat) : Int)
      let y1 := ((i1 / s.width : Nat) : Int)
      let s1 := [0, 1, 2, 3].foldl (fun sc d => propagateDir F fln sc t1 x1 y1 d) s0
      propagateGo fln fuel s1

/-- `SimpleTiled::propagate`: drain the stack, then return
`sums_of_ones[0] > 0` — the check looks at cell 0 only. -/
def propagate (fln : F → F) (s : SimpleTiled F) : SimpleTiled F × Bool :=
  let s' := propagateGo F fln
    (s.stack.length + s.width * s.height * s.num_tiles + 1) s
  (s', decide (0 < s'.sums_of_ones 0))

/-- The final sweep of `run` when `next_unobserved_node` returns `None`:
set each cell's `observed` to its first live variant, leaving it
untouched when no variant is live. -/
def sweepObserved (s : SimpleTiled F) : SimpleTiled F :=
  { s with
    observed := fun i =>
      if i < s.width * s.height then
        match (List.range s.num_tiles).find? (fun t => s.wave i t) with
        | some t => some t
        | none => s.observed i
      else s.observed i }

/-- The `for _ in 0..limit` loop of `run`. -/
def runGo (fln : F → F) : SimpleTiled F → Rng F → Nat → Bool × SimpleTiled F
  | s, _, 0 => (true, s)
  | s, rng, limit + 1 =>
    match next_unobserved_node F s rng with
    | (some node, s1, rng1) =>
      let ob := observe F fln s1 node rng1
      let pr := propagate F fln ob.1
      if pr.2 then runGo fln pr.1 ob.2 limit else (false, pr.1)
    | (none, s1, _) =>
      let s2 := sweepObserved F s1
      (!(List.range (s1.width * s1.height)).any (fun i => (s2.observed i).isNone), s2)

/-- `SimpleTiled::run(seed, limit)`: clear, seed the RNG, loop. -/
def run (fln : F → F) (s : SimpleTiled F) (seed : Nat) (limit : Nat) :
    Bool × SimpleTiled F :=
  runGo F fln (clear F s) ⟨chachaStream F seed, 0⟩ limit

/-- The `observed` array of a state, read out as a list. -/
def observedList (s : SimpleTiled F) : List (Option Nat) :=
  (List.range (s.width * s.height)).map s.observed

end Model

/-! Concrete fixtures used by witnesses and counterexamples.  `fln0` is a
stand-in logarithm for runs over `ℚ` whose claims do not mention `ln`. -/

/-- Trivial logarithm stand-in for concrete `ℚ` evaluations. -/
def fln0 : ℚ → ℚ := fun _ => 0

/-- A fixed RNG whose stream is constantly `0` (a legal `gen::<f64>()`
output). -/
def rng0 : Rng ℚ := ⟨fun _ => 0, 0⟩

/-- Single-tile configuration: tile `A`, symmetry `X`, weight 1,
neighbor `(A, A)`. -/
def cfgA : Config ℚ := ⟨[⟨"A", "X", some 1⟩], [⟨"A", "A"⟩]⟩

/-- Two-tile configuration: `A` and `B`, symmetry `X`, weight 1, the
single neighbor pair `(A, B)`. -/
def cfgAB : Config ℚ := ⟨[⟨"A", "X", some 1⟩, ⟨"B", "X", some 1⟩], [⟨"A", "B"⟩]⟩

/-- Single tile of weight 2, over `ℝ` (so that `w · ln w ≠ 0`). -/
def cfgC2 : Config ℝ := ⟨[⟨"A", "X", some 2⟩], [⟨"A", "A"⟩]⟩

/-- A default state, used only as the `Option.getD` fallback below. -/
def dummyState : SimpleTiled ℚ where
  tiles := []
  wave := fun _ _ => false
  propagator := fun _ _ => []
  compatible := fun _ _ _ => 0
  observed := fun _ => none
  stack := []
  observed_so_far := 0
  width := 0
  height := 0
  num_tiles := 0
  n := 1
  periodic := false
  heuristic := Heuristic.ScanLine
  weight_log_weights := []
  distribution := []
  sums_of_ones := fun _ => 0
  sum_of_weights := 0
  sum_of_weight_log_weights := 0
  starting_entropy := 0
  sums_of_weights := fun _ => 0
  sums_of_weight_log_weights := fun _ => 0
  entropies := fun _ => 0

/-- The 1×1 non-periodic ScanLine solver over `cfgA`. -/
def solverA : SimpleTiled ℚ :=
  (mkSolver ℚ fln0 cfgA 1 1 false Heuristic.ScanLine).getD dummyState

/-- The 1×1 non-periodic ScanLine solver over `cfgAB`. -/
def solverAB : SimpleTiled ℚ :=
  (mkSolver ℚ fln0 cfgAB 1 1 false Heuristic.ScanLine).getD dummyState

/-- A 2×1 single-variant state with an empty stack in which cell 1 has no
live variants left (`sums_of_ones = [1, 0]`) while cell 0 still has one. -/
def stC1 : SimpleTiled ℚ :=
  { dummyState with
    tiles := [1]
    wave := fun i _ => decide (i = 0)
    width := 2
    height := 1
    num_tiles := 1
    weight_log_weights := [0]
    distribution := [0]
    sums_of_ones := fun i => if i = 0 then 1 else 0
    sums_of_weights := fun i => if i = 0 then 1 else 0
    sum_of_weights := 1 }

/-- A 1×1 three-variant state at which variant 0 is already dead
(`wave[0] = [false, true, true]`, unit weights). -/
def stC6 : SimpleTiled ℚ :=
  { dummyState with
    tiles := [1, 1, 1]
    wave := fun _ t => !decide (t = 0)
    width := 1
    height := 1
    num_tiles := 3
    weight_log_weights := [0, 0, 0]
    distribution := [0, 0, 0]
    sums_of_ones := fun _ => 2
    sums_of_weights := fun _ => 2
    sum_of_weights := 3 }

/-- A 1×1 MRV state whose only cell has 10001 live variants — its
ranking value `sums_of_ones[0] as f64 = 10001` exceeds the `10_000.0`
sentinel that initializes `min` in `next_unobserved_node`. -/
def stC9 : SimpleTiled ℚ :=
  { dummyState with
    heuristic := Heuristic.MRV
    width := 1
    height := 1
    num_tiles := 10001
    sums_of_ones := fun _ => 10001 }

/-- A 1×1 MRV state whose only cell has two live variants: the
Entropy/MRV loop returns it (ranking value 2 is below the sentinel). -/
def stW : SimpleTiled ℚ :=
  { dummyState with
    heuristic := Heuristic.MRV
    width := 1
    height := 1
    num_tiles := 2
    tiles := [1, 1]
    sums_of_ones := fun _ => 2 }

/-- C1: the boolean returned at end-of-propagate is `sums_of_ones[0] > 0`
— it looks at cell 0 only.  At `stC1` cell 1 has `sums_of_ones = 0` (a
contradiction by the spec's definition), yet `propagate` returns `true`,
contradicting the claimed "false iff some cell has `sums_of_ones[i] = 0`". -/
theorem propagate_checks_only_cell_zero :
    (propagate ℚ fln0 stC1).2 = true
    ∧ stC1.sums_of_ones 1 = 0
    ∧ (propagate ℚ fln0 stC1).1.sums_of_ones 1 = 0
    ∧ (propagate ℚ fln0 stC1).1.sums_of_ones 0 = 1 := by decide

/-- C2: `new` creates `weight_log_weights` as `vec![0.0; num_tiles]` and
the program never writes to it again, so for a tile of weight 2 the table
holds `0` while the claimed value `w · ln w = 2 · ln 2` is nonzero. -/
theorem weight_log_weights_never_populated :
    (mkSolver ℝ Real.log cfgC2 1 1 false Heuristic.ScanLine).map
      (fun s => s.weight_log_weights) = some [(0 : ℝ)]
    ∧ (2 : ℝ) * Real.log 2 ≠ 0 := by
  refine ⟨rfl, ?_⟩
  have h2 : (0 : ℝ) < Real.log 2 := Real.log_pos (by norm_num)
  positivity

/-- C3 (counterexample): with `limit = 0` the loop body never runs, `run`
returns `true` on the exhaustion path, and `observed` is still all `None`
from `clear` — the cell 0 of the (nonempty) 1×1 grid is unobserved. -/
theorem run_true_with_unobserved_cells :
    (run ℚ fln0 solverA 0 0).1 = true
    ∧ (run ℚ fln0 solverA 0 0).2.observed 0 = none
    ∧ 0 < solverA.width * solverA.height := by decide

/-- C5 (counterexample): in the non-periodic 1×1 grid over `cfgAB`, cell 0
lies in the last column and last row, yet ScanLine returns it: with
`n = 1` the skip test `i % W + n > W || i / W + n > H` never fires. -/
theorem next_unobserved_node_returns_edge_cell :
    (next_unobserved_node ℚ (clear ℚ solverAB) rng0).1 = some 0
    ∧ (clear ℚ solverAB).periodic = false
    ∧ (clear ℚ solverAB).width = 1
    ∧ (clear ℚ solverAB).height = 1 := by decide

/-- C9 (counterexample): under MRV, a cell with 10001 live variants has
ranking value 10001 > the `10_000.0` sentinel, so it is never admitted as
a minimum and `next_unobserved_node` returns `None` even though an
eligible cell with `sums_of_ones[i] > 1` exists. -/
theorem next_unobserved_node_mrv_sentinel :
    (next_unobserved_node ℚ stC9 rng0).1 = none
    ∧ 1 < stC9.sums_of_ones 0
    ∧ stC9.heuristic = Heuristic.MRV
    ∧ skipCell ℚ stC9 0 = false := by decide

/-- C6 (counterexample): at `stC6` the draw `r = 0` makes the sampler
return index 0 (threshold `0 ≤` the first inclusive prefix sum) although
`wave[0][0]` is false; `observe` then calls `ban(0, 0)` — a ban on the
sampled index itself, visible as the pair `(0, 0)` pushed on the stack. -/
theorem observe_bans_sampled_index :
    stC6.wave 0 0 = false
    ∧ random_from_distr ℚ (obsDist ℚ stC6 0) 0 = 0
    ∧ (observe ℚ fln0 stC6 0 rng0).1.stack = [(0, 2), (0, 1), (0, 0)] := by
  refine ⟨by decide, ?_, ?_⟩
  · norm_num [random_from_distr, obsDist, stC6, dummyState, rfdLoop, List.range_succ]
  · norm_num [observe, obsDist, stC6, dummyState, rng0, Rng.gen, random_from_distr,
      rfdLoop, observeLoop, ban, List.range_succ]

/-- C4: `run` is a pure function of the constructed state, the seed and
the limit; all randomness is drawn from the stream seeded by `seed`, so
two solvers built from the same configuration, dimensions, periodicity
and heuristic produce the same result and the same `observed` array. -/
theorem run_deterministic {F : Type} [LinearOrderedField F] (fln : F → F)
    (cfg : Config F) (w h : Nat) (p : Bool) (heur : Heuristic)
    (seed limit : Nat) (s1 s2 : SimpleTiled F)
    (h1 : mkSolver F fln cfg w h p heur = some s1)
    (h2 : mkSolver F fln cfg w h p heur = some s2) :
    (run F fln s1 seed limit).1 = (run F fln s2 seed limit).1
    ∧ observedList F (run F fln s1 seed limit).2
      = observedList F (run F fln s2 seed limit).2 := by
  cases Option.some.inj (h1.symm.trans h2)
  exact ⟨rfl, rfl⟩

/-- C4 (witness): instantiating the determinism theorem at the concrete
solver over `cfgA`. -/
theorem run_deterministic_witness :
    mkSolver ℚ fln0 cfgA 1 1 false Heuristic.ScanLine = some solverA
    ∧ ((run ℚ fln0 solverA 0 5).1 = (run ℚ fln0 solverA 0 5).1
       ∧ observedList ℚ (run ℚ fln0 solverA 0 5).2
         = observedList ℚ (run ℚ fln0 solverA 0 5).2) :=
  ⟨rfl, run_deterministic fln0 cfgA 1 1 false Heuristic.ScanLine 0 5
    solverA solverA rfl rfl⟩

/-- C5: the boundary test is vacuous for `n = 1`: every in-grid cell has
`i % W + n ≤ W` and `i / W + n ≤ H`, so no heuristic ever skips a cell —
in particular cells of the last column/row are *not* skipped, and in
periodic mode the test is short-circuited anyway. -/
theorem skipCell_never_skips {F : Type} [LinearOrderedField F]
    (s : SimpleTiled F) (hn : s.n = 1) (hw : 0 < s.width)
    (i : Nat) (hi : i < s.width * s.height) : skipCell F s i = false := by
  have h1 : i % s.width < s.width := Nat.mod_lt i hw
  have h2 : i / s.width < s.height := Nat.div_lt_of_lt_mul hi
  have e1 : decide (i % s.width + s.n > s.width) = false := by
    rw [hn]; simp only [decide_eq_false_iff_not]; omega
  have e2 : decide (i / s.width + s.n > s.height) = false := by
    rw [hn]; simp only [decide_eq_false_iff_not]; omega
  simp [skipCell, e1, e2]

/-- C5 (witness). -/
theorem skipCell_never_skips_witness :
    stC9.n = 1 ∧ 0 < stC9.width ∧ 0 < stC9.width * stC9.height
    ∧ skipCell ℚ stC9 0 = false :=
  ⟨by decide, by decide, by decide,
   skipCell_never_skips stC9 (by decide) (by decide) 0 (by decide)⟩

/-- If every non-skipped cell of the scanned list has at most one live
variant, the Entropy/MRV loop never updates `argmin`. -/
theorem entropyLoop_none_of_all_le {F : Type} [LinearOrderedField F]
    (s : SimpleTiled F) :
    ∀ (l : List Nat) (m : F) (rng : Rng F),
      (∀ i ∈ l, skipCell F s i = false → s.sums_of_ones i ≤ 1) →
      (entropyLoop F s l m none rng).1 = none := by
  intro l
  induction l with
  | nil => intro m rng _; simp [entropyLoop]
  | cons a rest ih =>
    intro m rng hall
    simp only [entropyLoop]
    split
    · exact ih m rng (fun i hi his => hall i (List.mem_cons_of_mem a hi) his)
    · rename_i hskip
      have hskipf : skipCell F s a = false := by simpa using hskip
      split
      · rename_i hcond
        exact absurd hcond.1
          (by have := hall a (List.mem_cons_self a rest) hskipf; omega)
      · exact ih m rng (fun i hi his => hall i (List.mem_cons_of_mem a hi) his)

/-- The running-minimum invariant of the Entropy/MRV loop: if the loop
returns `some i` then (given draws in `[0,1)`) the ranking value of `i`
is at most the incoming minimum, is strictly below the `10_000.0`
sentinel, `i` is a non-skipped in-range cell with more than one live
variant, and its ranking value beats every non-skipped scanned cell with
more than one live variant up to the `10⁻⁶` tie-break noise. -/
theorem entropyLoop_argmin {F : Type} [LinearOrderedField F] (s : SimpleTiled F) :
    ∀ (l : List Nat) (m : F) (am : Option Nat) (rng : Rng F),
      (∀ k, 0 ≤ rng.stream k ∧ rng.stream k < 1) →
      m ≤ 10000 →
      (∀ j, am = some j → rankKey F s j ≤ m ∧ m < 10000
        ∧ j < s.width * s.height ∧ skipCell F s j = false ∧ 1 < s.sums_of_ones j) →
      (∀ a ∈ l, a < s.width * s.height) →
      ∀ i, (entropyLoop F s l m am rng).1 = some i →
        rankKey F s i ≤ m
        ∧ rankKey F s i < 10000
        ∧ i < s.width * s.height ∧ skipCell F s i = false ∧ 1 < s.sums_of_ones i
        ∧ ∀ j ∈ l, skipCell F s j = false → 1 < s.sums_of_ones j →
            rankKey F s i < rankKey F s j + 1 / 1000000 := by
  intro l
  induction l with
  | nil =>
    intro m am rng _ _ ham _ i h
    simp only [entropyLoop] at h
    obtain ⟨h1, h2, h3, h4, h5⟩ := ham i h
    exact ⟨h1, lt_of_le_of_lt h1 h2, h3, h4, h5,
      fun j hj => absurd hj (List.not_mem_nil j)⟩
  | cons a rest ih =>
    intro m am rng hrng hm ham hl i h
    simp only [entropyLoop] at h
    have hla : a < s.width * s.height := hl a (List.mem_cons_self a rest)
    have hlrest : ∀ b ∈ rest, b < s.width * s.height :=
      fun b hb => hl b (List.mem_cons_of_mem a hb)
    have hε : (0 : F) < 1 / 1000000 := by norm_num
    have hgen : (Rng.gen F rng).1 = rng.stream rng.idx := rfl
    have hd := hrng rng.idx
    have hnoise0 : 0 ≤ (1 / 1000000 : F) * (Rng.gen F rng).1 := by
      rw [hgen]; exact mul_nonneg (le_of_lt hε) hd.1
    have hnoiseε : (1 / 1000000 : F) * (Rng.gen F rng).1 < 1 / 1000000 := by
      rw [hgen]
      calc (1 / 1000000 : F) * rng.stream rng.idx
          < 1 / 1000000 * 1 := mul_lt_mul_of_pos_left hd.2 hε
        _ = 1 / 1000000 := mul_one _
    split at h
    · -- cell `a` skipped
      rename_i hskip
      obtain ⟨g1, g2, g3, g4, g5, g6⟩ := ih m am rng hrng hm ham hlrest i h
      refine ⟨g1, g2, g3, g4, g5, ?_⟩
      intro j hj hjs hjn
      rcases List.mem_cons.mp hj with hja | hjr
      · subst hja; rw [hjs] at hskip; exact absurd hskip (by simp)
      · exact g6 j hjr hjs hjn
    · rename_i hskip
      have hskipf : skipCell F s a = false := by simpa using hskip
      split at h
      · -- `a` live with key at or below the running minimum: a draw happens
        rename_i hcond
        split at h
        · -- the draw improves the minimum: `argmin := some a`
          rename_i hupd
          have ham' : ∀ j, some a = some j →
              rankKey F s j ≤ rankKey F s a + 1 / 1000000 * (Rng.gen F rng).1
              ∧ rankKey F s a + 1 / 1000000 * (Rng.gen F rng).1 < 10000
              ∧ j < s.width * s.height ∧ skipCell F s j = false
              ∧ 1 < s.sums_of_ones j := by
            intro j hj
            cases Option.some.inj hj
            exact ⟨le_add_of_nonneg_right hnoise0, lt_of_lt_of_le hupd hm,
              hla, hskipf, hcond.1⟩
          obtain ⟨g1, g2, g3, g4, g5, g6⟩ := ih
            (rankKey F s a + 1 / 1000000 * (Rng.gen F rng).1) (some a)
            (Rng.gen F rng).2 hrng (le_of_lt (lt_of_lt_of_le hupd hm))
            ham' hlrest i h
          refine ⟨g1.trans hupd.le, g2, g3, g4, g5, ?_⟩
          intro j hj hjs hjn
          rcases List.mem_cons.mp hj with hja | hjr
          · subst hja; linarith
          · exact g6 j hjr hjs hjn
        · -- the draw does not improve the minimum
          rename_i hupd
          have hge : m ≤ rankKey F s a + 1 / 1000000 * (Rng.gen F rng).1 :=
            not_lt.mp hupd
          obtain ⟨g1, g2, g3, g4, g5, g6⟩ := ih m am (Rng.gen F rng).2
            hrng hm ham hlrest i h
          refine ⟨g1, g2, g3, g4, g5, ?_⟩
          intro j hj hjs hjn
          rcases List.mem_cons.mp hj with hja | hjr
          · subst hja; linarith
          · exact g6 j hjr hjs hjn
      · -- `a` dead or above the running minimum: no draw, nothing changes
        rename_i hcond
        obtain ⟨g1, g2, g3, g4, g5, g6⟩ := ih m am rng hrng hm ham hlrest i h
        refine ⟨g1, g2, g3, g4, g5, ?_⟩
        intro j hj hjs hjn
        rcases List.mem_cons.mp hj with hja | hjr
        · subst hja
          have hkm : m < rankKey F s j :=
            not_le.mp (fun hle => hcond ⟨hjn, hle⟩)
          linarith
        · exact g6 j hjr hjs hjn

/-- C9 (amended): under Entropy and MRV (draws in `[0,1)`), a returned
cell is an eligible in-range cell with `sums_of_ones[i] > 1` whose
ranking value (`entropies[i]`, resp. `sums_of_ones[i]`) is below the
`10_000.0` sentinel and attains the minimum over eligible cells with
more than one live variant up to the `10⁻⁶` tie-break noise; and
`next_unobserved_node` returns `None` whenever no eligible cell has more
than one live variant.  (The "exactly when" of the original fails — see
the sentinel counterexample.) -/
theorem next_unobserved_node_entropy_mrv_argmin {F : Type}
    [LinearOrderedField F] (s : SimpleTiled F) (rng : Rng F)
    (hh : s.heuristic ≠ Heuristic.ScanLine)
    (hrng : ∀ k, 0 ≤ rng.stream k ∧ rng.stream k < 1) :
    (∀ i, (next_unobserved_node F s rng).1 = some i →
        i < s.width * s.height ∧ skipCell F s i = false ∧ 1 < s.sums_of_ones i
        ∧ rankKey F s i < 10000
        ∧ ∀ j < s.width * s.height, skipCell F s j = false →
            1 < s.sums_of_ones j →
            rankKey F s i < rankKey F s j + 1 / 1000000)
    ∧ ((∀ i < s.width * s.height, skipCell F s i = false →
          s.sums_of_ones i ≤ 1) →
        (next_unobserved_node F s rng).1 = none) := by
  constructor
  · intro i h
    simp only [next_unobserved_node, if_neg hh] at h
    obtain ⟨g1, g2, g3, g4, g5, g6⟩ := entropyLoop_argmin s
      (List.range (s.width * s.height)) 10000 none rng hrng le_rfl
      (fun j hj => absurd hj (by simp))
      (fun a ha => List.mem_range.mp ha) i h
    exact ⟨g3, g4, g5, g2,
      fun j hj hjs hjn => g6 j (List.mem_range.mpr hj) hjs hjn⟩
  · intro hall
    simp only [next_unobserved_node, if_neg hh]
    exact entropyLoop_none_of_all_le s _ _ _
      (fun i hi his => hall i (List.mem_range.mp hi) his)

/-- C9 (witness): at `stW` the MRV loop actually returns cell 0, so the
theorem's attainment conclusion is exercised non-vacuously. -/
theorem next_unobserved_node_entropy_mrv_argmin_witness :
    stW.heuristic ≠ Heuristic.ScanLine
    ∧ (∀ k, 0 ≤ rng0.stream k ∧ rng0.stream k < 1)
    ∧ (next_unobserved_node ℚ stW rng0).1 = some 0
    ∧ ((∀ i, (next_unobserved_node ℚ stW rng0).1 = some i →
          i < stW.width * stW.height ∧ skipCell ℚ stW i = false
          ∧ 1 < stW.sums_of_ones i
          ∧ rankKey ℚ stW i < 10000
          ∧ ∀ j < stW.width * stW.height, skipCell ℚ stW j = false →
              1 < stW.sums_of_ones j →
              rankKey ℚ stW i < rankKey ℚ stW j + 1 / 1000000)
       ∧ ((∀ i < stW.width * stW.height, skipCell ℚ stW i = false →
            stW.sums_of_ones i ≤ 1) →
          (next_unobserved_node ℚ stW rng0).1 = none)) :=
  ⟨by decide, fun k => ⟨le_rfl, by norm_num [rng0]⟩,
   by
     have e1 := eq_false (by decide : ¬ (Heuristic.MRV = Heuristic.ScanLine))
     have e2 := eq_false (by decide : ¬ (Heuristic.MRV = Heuristic.Entropy))
     norm_num [next_unobserved_node, entropyLoop, rankKey, skipCell,
       stW, dummyState, rng0, Rng.gen, List.range_succ, e1, e2],
   next_unobserved_node_entropy_mrv_argmin stW rng0 (by decide)
     (fun k => ⟨le_rfl, by norm_num [rng0]⟩)⟩

/-- Each expansion step appends `cardinality` rows to the action table
and `cardinality` weights to the tile list, preserving equal lengths. -/
theorem expandTile_lengths {F : Type} [LinearOrderedField F]
    (acc acc' : List (List Int) × List (List Char × Nat) × List F) (tile : Tile F)
    (he : expandTile F acc tile = some acc') (h : acc.2.2.length = acc.1.length) :
    acc'.2.2.length = acc'.1.length := by
  unfold expandTile at he
  split at he
  · exact Option.noConfusion he
  · split at he
    · exact Option.noConfusion he
    · injection he with he
      subst he
      simp [h]

/-- After tile expansion there are exactly as many weights as action
rows: `tiles.len() = num_tiles` in every constructed solver. -/
theorem expandTiles_lengths {F : Type} [LinearOrderedField F] :
    ∀ (ts : List (Tile F)) (acc res : List (List Int) × List (List Char × Nat) × List F),
      acc.2.2.length = acc.1.length →
      List.foldlM (expandTile F) acc ts = some res →
      res.2.2.length = res.1.length := by
  intro ts
  induction ts with
  | nil =>
    intro acc res h hf
    simp only [List.foldlM] at hf
    cases hf
    exact h
  | cons tile rest ih =>
    intro acc res h hf
    rw [List.foldlM_cons] at hf
    cases he : expandTile F acc tile with
    | none => rw [he] at hf; exact Option.noConfusion hf
    | some acc' =>
      rw [he] at hf
      simp only [Option.bind_eq_bind, Option.some_bind] at hf
      exact ih acc' res (expandTile_lengths acc acc' tile he h) hf

/-- Inversion of a successful `mkSolver`: the intermediate data and the
initial field values. -/
theorem mkSolver_inv {F : Type} [LinearOrderedField F] {fln : F → F}
    {cfg : Config F} {w h : Nat} {p : Bool} {heur : Heuristic} {s : SimpleTiled F}
    (hs : mkSolver F fln cfg w h p heur = some s) :
    ∃ action fo weights g,
      expandTiles F cfg.tiles = some (action, fo, weights)
      ∧ buildDense action fo cfg.neighbors = some g
      ∧ s.tiles = weights
      ∧ s.num_tiles = action.length
      ∧ s.propagator = sparsify g action.length
      ∧ s.stack = []
      ∧ s.width = w ∧ s.height = h ∧ s.n = 1
      ∧ s.observed_so_far = 0
      ∧ s.sum_of_weights = sumWeights F weights
      ∧ s.sum_of_weight_log_weights = sumWLW F fln weights
      ∧ s.weight_log_weights = List.replicate action.length 0 := by
  unfold mkSolver at hs
  split at hs
  · exact Option.noConfusion hs
  · split at hs
    · exact Option.noConfusion hs
    · split at hs
      · exact Option.noConfusion hs
      · rename_i action fo weights heq
        split at hs
        · exact Option.noConfusion hs
        · rename_i g hg
          injection hs with hs
          subst hs
          exact ⟨action, fo, weights, g, heq, hg, rfl, rfl, rfl, rfl, rfl, rfl,
            rfl, rfl, rfl, rfl, rfl⟩

/-- C7: after `clear()` on a constructed solver, every in-range cell has
a fully live wave row, `compatible[i][t][d] = |P[opp(d)][t]|`,
`sums_of_ones[i] = T`, the full-tile-set weighted sums, the starting
entropy, no observation, `observed_so_far = 0` and an empty ban stack. -/
theorem clear_initializes {F : Type} [LinearOrderedField F] (fln : F → F)
    (cfg : Config F) (w h : Nat) (p : Bool) (heur : Heuristic)
    (s : SimpleTiled F) (hs : mkSolver F fln cfg w h p heur = some s) :
    ∀ i < s.width * s.height, ∀ t < s.num_tiles, ∀ d < 4,
      (clear F s).wave i t = true
      ∧ (clear F s).compatible i t d = ((s.propagator (OPPOSITE d) t).length : Int)
      ∧ (clear F s).sums_of_ones i = (s.num_tiles : Int)
      ∧ (clear F s).sums_of_weights i = sumWeights F s.tiles
      ∧ (clear F s).sums_of_weight_log_weights i = sumWLW F fln s.tiles
      ∧ (clear F s).entropies i = s.starting_entropy
      ∧ (clear F s).observed i = none
      ∧ (clear F s).observed_so_far = 0
      ∧ (clear F s).stack = [] := by
  intro i hi t ht d hd
  obtain ⟨action, fo, weights, g, hexp, hbd, htiles, hnum, hprop, hstack, hw, hh,
    hn, hoso, hsow, hsowlw, hwlw⟩ := mkSolver_inv hs
  have hlen : s.tiles.length = s.num_tiles := by
    rw [htiles, hnum]
    exact expandTiles_lengths cfg.tiles ([], [], []) (action, fo, weights) rfl hexp
  refine ⟨?_, ?_, ?_, ?_, ?_, ?_, ?_, rfl, ?_⟩
  · simp [clear, hi, ht]
  · simp [clear, hi, ht, hd]
  · simp [clear, hi, hlen]
  · simp [clear, hi, hsow, htiles]
  · simp [clear, hi, hsowlw, htiles]
  · simp [clear, hi]
  · simp [clear, hi]
  · simpa [clear] using hstack

/-- C7 (witness). -/
theorem clear_initializes_witness :
    mkSolver ℚ fln0 cfgA 1 1 false Heuristic.ScanLine = some solverA
    ∧ 0 < solverA.width * solverA.height ∧ 0 < solverA.num_tiles ∧ (0 : Nat) < 4
    ∧ ((clear ℚ solverA).wave 0 0 = true
       ∧ (clear ℚ solverA).compatible 0 0 0
         = ((solverA.propagator (OPPOSITE 0) 0).length : Int)
       ∧ (clear ℚ solverA).sums_of_ones 0 = (solverA.num_tiles : Int)
       ∧ (clear ℚ solverA).sums_of_weights 0 = sumWeights ℚ solverA.tiles
       ∧ (clear ℚ solverA).sums_of_weight_log_weights 0 = sumWLW ℚ fln0 solverA.tiles
       ∧ (clear ℚ solverA).entropies 0 = solverA.starting_entropy
       ∧ (clear ℚ solverA).observed 0 = none
       ∧ (clear ℚ solverA).observed_so_far = 0
       ∧ (clear ℚ solverA).stack = []) :=
  ⟨rfl, by decide, by decide, by decide,
   clear_initializes fln0 cfgA 1 1 false Heuristic.ScanLine solverA rfl
     0 (by decide) 0 (by decide) 0 (by decide)⟩

/-- Membership in the sparsified propagator is symmetric across opposite
directions, because directions 2 and 3 are built as the transposes of
directions 0 and 1. -/
theorem sparsify_mem_iff (g : Nat → Nat → Nat → Bool) (T d t1 t2 : Nat)
    (hd : d < 4) (h1 : t1 < T) (h2 : t2 < T) :
    (t2 ∈ sparsify g T d t1 ↔ t1 ∈ sparsify g T (OPPOSITE d) t2) := by
  interval_cases d <;>
    simp [sparsify, OPPOSITE, denseFull, List.mem_filter, List.mem_range, h1, h2]

/-- C8: the propagator built by the constructor is bidirectionally
closed: `t2 ∈ P[d][t1] ↔ t1 ∈ P[opp(d)][t2]` for all variant indices
below `T`. -/
theorem propagator_bidirectional {F : Type} [LinearOrderedField F] (fln : F → F)
    (cfg : Config F) (w h : Nat) (p : Bool) (heur : Heuristic)
    (s : SimpleTiled F) (hs : mkSolver F fln cfg w h p heur = some s) :
    ∀ d < 4, ∀ t1 < s.num_tiles, ∀ t2 < s.num_tiles,
      (t2 ∈ s.propagator d t1 ↔ t1 ∈ s.propagator (OPPOSITE d) t2) := by
  intro d hd t1 h1 t2 h2
  obtain ⟨action, fo, weights, g, _, _, _, hnum, hprop, _⟩ := mkSolver_inv hs
  rw [hprop]
  exact sparsify_mem_iff g action.length d t1 t2 hd (hnum ▸ h1) (hnum ▸ h2)

/-- C8 (witness): over `cfgAB`, `B ∈ P[0][A]` and `A ∈ P[2][B]`. -/
theorem propagator_bidirectional_witness :
    mkSolver ℚ fln0 cfgAB 1 1 false Heuristic.ScanLine = some solverAB
    ∧ (0 : Nat) < 4 ∧ 0 < solverAB.num_tiles ∧ 1 < solverAB.num_tiles
    ∧ (1 ∈ solverAB.propagator 0 0 ↔ 0 ∈ solverAB.propagator (OPPOSITE 0) 1) :=
  ⟨rfl, by decide, by decide, by decide,
   propagator_bidirectional fln0 cfgAB 1 1 false Heuristic.ScanLine solverAB rfl
     0 (by decide) 0 (by decide) 1 (by decide)⟩

/-- C10: each sparse propagator list is built by filtering
`0, 1, …, T-1` in order, hence strictly increasing and duplicate-free. -/
theorem propagator_strictly_increasing {F : Type} [LinearOrderedField F]
    (fln : F → F) (cfg : Config F) (w h : Nat) (p : Bool) (heur : Heuristic)
    (s : SimpleTiled F) (hs : mkSolver F fln cfg w h p heur = some s) :
    ∀ d t1, List.Pairwise (· < ·) (s.propagator d t1)
      ∧ (s.propagator d t1).Nodup := by
  intro d t1
  obtain ⟨action, fo, weights, g, _, _, _, _, hprop, _⟩ := mkSolver_inv hs
  rw [hprop]
  have hpw : List.Pairwise (· < ·) (sparsify g action.length d t1) := by
    unfold sparsify
    split
    · exact List.Pairwise.sublist (List.filter_sublist _) (List.pairwise_lt_range _)
    · exact List.Pairwise.nil
  exact ⟨hpw, hpw.imp Nat.ne_of_lt⟩

/-- C10 (witness). -/
theorem propagator_strictly_increasing_witness :
    mkSolver ℚ fln0 cfgAB 1 1 false Heuristic.ScanLine = some solverAB
    ∧ (List.Pairwise (· < ·) (solverAB.propagator 0 0)
       ∧ (solverAB.propagator 0 0).Nodup) :=
  ⟨rfl, propagator_strictly_increasing fln0 cfgAB 1 1 false Heuristic.ScanLine
    solverAB rfl 0 0⟩

/-- If the sampling scan returns an index, it is the least one whose
inclusive running sum reaches the threshold. -/
theorem rfdLoop_some_spec {F : Type} [LinearOrderedField F] (θ : F) :
    ∀ (ws : List F) (acc : F) (i r : Nat),
      rfdLoop F θ ws acc i = some r →
      ∃ j, j < ws.length ∧ r = i + j ∧ θ ≤ acc + runningSum F ws j
        ∧ ∀ j' < j, acc + runningSum F ws j' < θ := by
  intro ws
  induction ws with
  | nil => intro acc i r h; exact Option.noConfusion h
  | cons w ws ih =>
    intro acc i r h
    simp only [rfdLoop] at h
    split at h
    · rename_i hth
      injection h with h
      subst h
      exact ⟨0, by simp, by omega, by simpa [runningSum] using hth,
        fun j' hj' => absurd hj' (Nat.not_lt_zero j')⟩
    · rename_i hth
      obtain ⟨j, hjlen, hr, hge, hlt⟩ := ih (acc + w) (i + 1) r h
      refine ⟨j + 1, by simpa using hjlen, by omega, ?_, ?_⟩
      · show θ ≤ acc + runningSum F (w :: ws) (j + 1)
        rw [runningSum, ← add_assoc]
        exact hge
      · intro j' hj'
        cases j' with
        | zero =>
          show acc + runningSum F (w :: ws) 0 < θ
          rw [runningSum]
          exact lt_of_not_le hth
        | succ j'' =>
          have hx := hlt j'' (by omega)
          show acc + runningSum F (w :: ws) (j'' + 1) < θ
          rw [runningSum, ← add_assoc]
          exact hx

/-- If the sampling scan falls through, no inclusive running sum reaches
the threshold. -/
theorem rfdLoop_none_spec {F : Type} [LinearOrderedField F] (θ : F) :
    ∀ (ws : List F) (acc : F) (i : Nat),
      rfdLoop F θ ws acc i = none →
      ∀ j < ws.length, acc + runningSum F ws j < θ := by
  intro ws
  induction ws with
  | nil => intro acc i _ j hj; exact absurd hj (by simp)
  | cons w ws ih =>
    intro acc i h j hj
    simp only [rfdLoop] at h
    split at h
    · exact Option.noConfusion h
    · rename_i hth
      cases j with
      | zero =>
        show acc + runningSum F (w :: ws) 0 < θ
        rw [runningSum]
        exact lt_of_not_le hth
      | succ j' =>
        have hx := ih (acc + w) (i + 1) h j' (by simpa using hj)
        show acc + runningSum F (w :: ws) (j' + 1) < θ
        rw [runningSum, ← add_assoc]
        exact hx

/-- `random_from_distr` returns the least index whose inclusive prefix
sum reaches `r * Σ`, and `0` when no index does. -/
theorem random_from_distr_spec {F : Type} [LinearOrderedField F]
    (ws : List F) (r : F) :
    (random_from_distr F ws r < ws.length
      ∧ r * sumWeights F ws ≤ runningSum F ws (random_from_distr F ws r)
      ∧ ∀ j < random_from_distr F ws r,
          runningSum F ws j < r * sumWeights F ws)
    ∨ (random_from_distr F ws r = 0
      ∧ ∀ j < ws.length, runningSum F ws j < r * sumWeights F ws) := by
  have hdef : random_from_distr F ws r
      = (rfdLoop F (r * sumWeights F ws) ws 0 0).getD 0 := rfl
  cases hres : rfdLoop F (r * sumWeights F ws) ws 0 0 with
  | some k =>
    obtain ⟨j, hjlen, hk, hge, hlt⟩ := rfdLoop_some_spec _ ws 0 0 k hres
    left
    rw [hdef, hres]
    simp only [Option.getD_some]
    have hkj : k = j := by omega
    subst hkj
    refine ⟨hjlen, by simpa using hge, fun j' hj' => by simpa using hlt j' hj'⟩
  | none =>
    right
    rw [hdef, hres]
    exact ⟨rfl, fun j hj => by simpa using rfdLoop_none_spec _ ws 0 0 hres j hj⟩

/-- The ban loop of `observe` pushes `(node, t)` exactly for the indices
`t` with `wave[node][t] != (t == r)`, in scan order. -/
theorem observeLoop_stack {F : Type} [LinearOrderedField F] (fln : F → F)
    (r node : Nat) :
    ∀ (l : List Nat) (s : SimpleTiled F), l.Nodup →
      (observeLoop F fln r node s l).stack
        = ((l.filter (fun t => s.wave node t != decide (t = r))).reverse.map
            (fun t => (node, t))) ++ s.stack := by
  intro l
  induction l with
  | nil => intro s _; simp [observeLoop]
  | cons t rest ih =>
    intro s hnd
    have hnd' : rest.Nodup := hnd.of_cons
    have htnotin : t ∉ rest := (List.nodup_cons.mp hnd).1
    have hfeq : rest.filter
          (fun t' => (ban F fln s node t).wave node t' != decide (t' = r))
        = rest.filter (fun t' => s.wave node t' != decide (t' = r)) := by
      apply List.filter_congr
      intro x hx
      have hxne : ¬ x = t := fun e => htnotin (e ▸ hx)
      simp [ban]
      exact fun _ => hxne
    simp only [observeLoop]
    split
    · rename_i hcond
      rw [ih (ban F fln s node t) hnd', hfeq]
      have hbs : (ban F fln s node t).stack = (node, t) :: s.stack := rfl
      rw [hbs]
      simp [List.filter_cons, hcond]
    · rename_i hcond
      have hc' : (s.wave node t != decide (t = r)) = false := by
        simpa using hcond
      rw [ih s hnd']
      simp [List.filter_cons, hc']

/-- C6 (amended): `observe` pushes a ban for exactly the indices `t` with
`wave[node][t] != (t == k)` — every live `t ≠ k` plus `k` itself when
`wave[node][k]` is false — where `k = random_from_distr(dist, r)` is the
least index whose inclusive prefix sum of the live-weight distribution
reaches `r` times the total (0 when no index reaches it, in particular
when all live weights are zero). -/
theorem observe_ban_set_and_sampler {F : Type} [LinearOrderedField F]
    (fln : F → F) (s : SimpleTiled F) (node : Nat) (rng : Rng F) :
    ((observe F fln s node rng).1.stack
      = (((List.range s.num_tiles).filter
          (fun t => s.wave node t
            != decide (t = random_from_distr F (obsDist F s node)
                (rng.stream rng.idx)))).reverse.map (fun t => (node, t)))
        ++ s.stack)
    ∧ ((random_from_distr F (obsDist F s node) (rng.stream rng.idx)
          < (obsDist F s node).length
        ∧ rng.stream rng.idx * sumWeights F (obsDist F s node)
            ≤ runningSum F (obsDist F s node)
                (random_from_distr F (obsDist F s node) (rng.stream rng.idx))
        ∧ ∀ j < random_from_distr F (obsDist F s node) (rng.stream rng.idx),
            runningSum F (obsDist F s node) j
              < rng.stream rng.idx * sumWeights F (obsDist F s node))
      ∨ (random_from_distr F (obsDist F s node) (rng.stream rng.idx) = 0
        ∧ ∀ j < (obsDist F s node).length,
            runningSum F (obsDist F s node) j
              < rng.stream rng.idx * sumWeights F (obsDist F s node))) := by
  constructor
  · have h := observeLoop_stack fln
      (random_from_distr F (obsDist F s node) (rng.stream rng.idx)) node
      (List.range s.num_tiles) { s with distribution := obsDist F s node }
      (List.nodup_range s.num_tiles)
    simpa [observe, Rng.gen] using h
  · exact random_from_distr_spec (obsDist F s node) (rng.stream rng.idx)

/-- A fold over pairs `(state, list)` whose step keeps `observed`,
`width` and `height` unchanged keeps them unchanged overall. -/
theorem foldl_pres_pair {F : Type} [LinearOrderedField F] {α : Type}
    (f : SimpleTiled F × List Nat → α → SimpleTiled F × List Nat)
    (hf : ∀ acc a, (f acc a).1.observed = acc.1.observed
      ∧ (f acc a).1.width = acc.1.width ∧ (f acc a).1.height = acc.1.height) :
    ∀ (l : List α) (acc : SimpleTiled F × List Nat),
      (l.foldl f acc).1.observed = acc.1.observed
      ∧ (l.foldl f acc).1.width = acc.1.width
      ∧ (l.foldl f acc).1.height = acc.1.height := by
  intro l
  induction l with
  | nil => intro acc; exact ⟨rfl, rfl, rfl⟩
  | cons a rest ih =>
    intro acc
    obtain ⟨h1, h2, h3⟩ := ih (f acc a)
    obtain ⟨g1, g2, g3⟩ := hf acc a
    exact ⟨h1.trans g1, h2.trans g2, h3.trans g3⟩

/-- A state fold whose step keeps `observed`, `width` and `height`
unchanged keeps them unchanged overall. -/
theorem foldl_pres_state {F : Type} [LinearOrderedField F] {α : Type}
    (f : SimpleTiled F → α → SimpleTiled F)
    (hf : ∀ s a, (f s a).observed = s.observed
      ∧ (f s a).width = s.width ∧ (f s a).height = s.height) :
    ∀ (l : List α) (s : SimpleTiled F),
      (l.foldl f s).observed = s.observed
      ∧ (l.foldl f s).width = s.width
      ∧ (l.foldl f s).height = s.height := by
  intro l
  induction l with
  | nil => intro s; exact ⟨rfl, rfl, rfl⟩
  | cons a rest ih =>
    intro s
    obtain ⟨h1, h2, h3⟩ := ih (f s a)
    obtain ⟨g1, g2, g3⟩ := hf s a
    exact ⟨h1.trans g1, h2.trans g2, h3.trans g3⟩

/-- `ban` never touches `observed`, `width` or `height`. -/
theorem ban_pres {F : Type} [LinearOrderedField F] (fln : F → F)
    (s : SimpleTiled F) (i t : Nat) :
    (ban F fln s i t).observed = s.observed
    ∧ (ban F fln s i t).width = s.width
    ∧ (ban F fln s i t).height = s.height := ⟨rfl, rfl, rfl⟩

/-- Neither does the ban loop of `observe`. -/
theorem observeLoop_pres {F : Type} [LinearOrderedField F] (fln : F → F)
    (r node : Nat) :
    ∀ (l : List Nat) (s : SimpleTiled F),
      (observeLoop F fln r node s l).observed = s.observed
      ∧ (observeLoop F fln r node s l).width = s.width
      ∧ (observeLoop F fln r node s l).height = s.height := by
  intro l
  induction l with
  | nil => intro s; exact ⟨rfl, rfl, rfl⟩
  | cons t rest ih =>
    intro s
    simp only [observeLoop]
    split
    · obtain ⟨h1, h2, h3⟩ := ih (ban F fln s node t)
      exact ⟨h1.trans rfl, h2.trans rfl, h3.trans rfl⟩
    · exact ih s

/-- `observe` never touches `observed`, `width` or `height`. -/
theorem observe_pres {F : Type} [LinearOrderedField F] (fln : F → F)
    (s : SimpleTiled F) (node : Nat) (rng : Rng F) :
    (observe F fln s node rng).1.observed = s.observed
    ∧ (observe F fln s node rng).1.width = s.width
    ∧ (observe F fln s node rng).1.height = s.height :=
  observeLoop_pres fln _ node (List.range s.num_tiles)
    { s with distribution := obsDist F s node }

/-- One propagation direction never touches `observed`, `width` or
`height`. -/
theorem propagateDir_pres {F : Type} [LinearOrderedField F] (fln : F → F)
    (s : SimpleTiled F) (t1 : Nat) (x1 y1 : Int) (d : Nat) :
    (propagateDir F fln s t1 x1 y1 d).observed = s.observed
    ∧ (propagateDir F fln s t1 x1 y1 d).width = s.width
    ∧ (propagateDir F fln s t1 x1 y1 d).height = s.height := by
  have htail : ∀ (i2 d' : Nat) (l : List Nat) (s' : SimpleTiled F),
      ((l.foldl (decStep F i2 d') (s', [])).2.foldl
        (fun sc t2 => ban F fln sc i2 t2)
        (l.foldl (decStep F i2 d') (s', [])).1).observed = s'.observed
      ∧ ((l.foldl (decStep F i2 d') (s', [])).2.foldl
        (fun sc t2 => ban F fln sc i2 t2)
        (l.foldl (decStep F i2 d') (s', [])).1).width = s'.width
      ∧ ((l.foldl (decStep F i2 d') (s', [])).2.foldl
        (fun sc t2 => ban F fln sc i2 t2)
        (l.foldl (decStep F i2 d') (s', [])).1).height = s'.height := by
    intro i2 d' l s'
    obtain ⟨g1, g2, g3⟩ := foldl_pres_pair (decStep F i2 d')
      (fun acc a => ⟨rfl, rfl, rfl⟩) l (s', [])
    obtain ⟨h1, h2, h3⟩ := foldl_pres_state
      (fun sc t2 => ban F fln sc i2 t2) (fun sc t2 => ban_pres fln sc i2 t2)
      (l.foldl (decStep F i2 d') (s', [])).2
      (l.foldl (decStep F i2 d') (s', [])).1
    exact ⟨h1.trans g1, h2.trans g2, h3.trans g3⟩
  unfold propagateDir
  dsimp only
  split
  · exact ⟨rfl, rfl, rfl⟩
  · exact htail _ d (s.propagator d t1) s

/-- The propagation loop never touches `observed`, `width` or `height`. -/
theorem propagateGo_pres {F : Type} [LinearOrderedField F] (fln : F → F) :
    ∀ (fuel : Nat) (s : SimpleTiled F),
      (propagateGo F fln fuel s).observed = s.observed
      ∧ (propagateGo F fln fuel s).width = s.width
      ∧ (propagateGo F fln fuel s).height = s.height := by
  intro fuel
  induction fuel with
  | zero => intro s; exact ⟨rfl, rfl, rfl⟩
  | succ n ih =>
    intro s
    simp only [propagateGo]
    split
    · exact ⟨rfl, rfl, rfl⟩
    · rename_i i1 t1 rest _
      obtain ⟨h1, h2, h3⟩ := ih ([0, 1, 2, 3].foldl
        (fun sc d => propagateDir F fln sc t1 ((i1 % s.width : Nat) : Int)
          ((i1 / s.width : Nat) : Int) d) { s with stack := rest })
      obtain ⟨g1, g2, g3⟩ := foldl_pres_state _
        (fun sc d => propagateDir_pres fln sc t1 _ _ d)
        [0, 1, 2, 3] { s with stack := rest }
      exact ⟨h1.trans (g1.trans rfl), h2.trans (g2.trans rfl),
        h3.trans (g3.trans rfl)⟩

/-- `propagate` never touches `observed`, `width` or `height`. -/
theorem propagate_pres {F : Type} [LinearOrderedField F] (fln : F → F)
    (s : SimpleTiled F) :
    (propagate F fln s).1.observed = s.observed
    ∧ (propagate F fln s).1.width = s.width
    ∧ (propagate F fln s).1.height = s.height :=
  propagateGo_pres fln _ s

/-- The ScanLine loop only updates `observed_so_far`. -/
theorem scanLoop_pres {F : Type} [LinearOrderedField F] (s : SimpleTiled F) :
    ∀ l : List Nat,
      (scanLoop F s l).2.observed = s.observed
      ∧ (scanLoop F s l).2.width = s.width
      ∧ (scanLoop F s l).2.height = s.height := by
  intro l
  induction l with
  | nil => exact ⟨rfl, rfl, rfl⟩
  | cons i rest ih =>
    simp only [scanLoop]
    split
    · exact ih
    · split
      · exact ⟨rfl, rfl, rfl⟩
      · exact ih

/-- `next_unobserved_node` never touches `observed`, `width` or
`height`. -/
theorem next_unobserved_node_pres {F : Type} [LinearOrderedField F]
    (s : SimpleTiled F) (rng : Rng F) :
    (next_unobserved_node F s rng).2.1.observed = s.observed
    ∧ (next_unobserved_node F s rng).2.1.width = s.width
    ∧ (next_unobserved_node F s rng).2.1.height = s.height := by
  unfold next_unobserved_node
  split
  · exact scanLoop_pres s _
  · exact ⟨rfl, rfl, rfl⟩

/-- The loop of `run` either ends on the `None` branch — whose sweep
leaves every cell observed at a live variant whenever it reports `true` —
or exhausts its fuel with `observed` untouched (all `None`). -/
theorem runGo_dichotomy {F : Type} [LinearOrderedField F] (fln : F → F) :
    ∀ (limit : Nat) (s : SimpleTiled F) (rng : Rng F),
      (∀ i < s.width * s.height, s.observed i = none) →
      (runGo F fln s rng limit).1 = true →
      ((∀ i < s.width * s.height, ∃ k,
          (runGo F fln s rng limit).2.observed i = some k
          ∧ (runGo F fln s rng limit).2.wave i k = true)
        ∨ (∀ i < s.width * s.height,
            (runGo F fln s rng limit).2.observed i = none)) := by
  intro limit
  induction limit with
  | zero =>
    intro s rng hinv _
    exact Or.inr hinv
  | succ n ih =>
    intro s rng hinv htrue
    obtain ⟨hno, hnw, hnh⟩ := next_unobserved_node_pres s rng
    rcases hnun : next_unobserved_node F s rng with ⟨o, s1, rng1⟩
    rw [hnun] at hno hnw hnh
    dsimp only at hno hnw hnh
    cases o with
    | some node =>
      have hstep : runGo F fln s rng (n + 1)
          = if (propagate F fln (observe F fln s1 node rng1).1).2 = true
            then runGo F fln (propagate F fln (observe F fln s1 node rng1).1).1
              (observe F fln s1 node rng1).2 n
            else (false, (propagate F fln (observe F fln s1 node rng1).1).1) := by
        rw [runGo, hnun]
      obtain ⟨hoo, how, hoh⟩ := observe_pres fln s1 node rng1
      obtain ⟨hpo, hpw, hph⟩ := propagate_pres fln (observe F fln s1 node rng1).1
      cases hc : (propagate F fln (observe F fln s1 node rng1).1).2 with
      | false =>
        rw [hstep, if_neg (by simp [hc])] at htrue
        simp at htrue
      | true =>
        rw [hstep, if_pos hc] at htrue ⊢
        have hinv' : ∀ i < (propagate F fln (observe F fln s1 node rng1).1).1.width
            * (propagate F fln (observe F fln s1 node rng1).1).1.height,
            (propagate F fln (observe F fln s1 node rng1).1).1.observed i = none := by
          intro i hi
          rw [hpo, hoo, hno]
          apply hinv
          rw [hpw, how, hnw, hph, hoh, hnh] at hi
          exact hi
        have hres := ih (propagate F fln (observe F fln s1 node rng1).1).1
          (observe F fln s1 node rng1).2 hinv' htrue
        have hdims : (propagate F fln (observe F fln s1 node rng1).1).1.width
            * (propagate F fln (observe F fln s1 node rng1).1).1.height
            = s.width * s.height := by
          rw [hpw, how, hnw, hph, hoh, hnh]
        rw [hdims] at hres
        exact hres
    | none =>
      have hstep : runGo F fln s rng (n + 1)
          = (!(List.range (s1.width * s1.height)).any
              (fun j => ((sweepObserved F s1).observed j).isNone),
            sweepObserved F s1) := by
        rw [runGo, hnun]
      rw [hstep] at htrue
      rw [hstep]
      left
      intro i hi
      have hi1 : i < s1.width * s1.height := by rw [hnw, hnh]; exact hi
      have hany : ((List.range (s1.width * s1.height)).any
          (fun j => ((sweepObserved F s1).observed j).isNone)) = false := by
        simpa using htrue
      have hx := List.any_eq_false.mp hany i (List.mem_range.mpr hi1)
      cases hf : (List.range s1.num_tiles).find? (fun t => s1.wave i t) with
      | some t =>
        refine ⟨t, ?_, ?_⟩
        · show (sweepObserved F s1).observed i = some t
          simp [sweepObserved, hi1, hf]
        · show (sweepObserved F s1).wave i t = true
          have := List.find?_some hf
          simpa using this
      | none =>
        exfalso
        have hnone : (sweepObserved F s1).observed i = none := by
          simp only [sweepObserved]
          rw [if_pos hi1, hf]
          rw [hno]
          exact hinv i hi
        rw [hnone] at hx
        simp at hx

/-- C3 (amended): whenever `run` returns `true`, either every cell was
observed at a live variant (the `next_unobserved_node = None` sweep
path), or the loop exhausted `limit` and every cell's `observed` is still
`None` — the loop body itself never writes `observed`. -/
theorem run_true_observed_dichotomy {F : Type} [LinearOrderedField F]
    (fln : F → F) (s : SimpleTiled F) (seed limit : Nat)
    (htrue : (run F fln s seed limit).1 = true) :
    (∀ i < s.width * s.height, ∃ k,
        (run F fln s seed limit).2.observed i = some k
        ∧ (run F fln s seed limit).2.wave i k = true)
    ∨ (∀ i < s.width * s.height, (run F fln s seed limit).2.observed i = none) := by
  have hinv : ∀ i < (clear F s).width * (clear F s).height,
      (clear F s).observed i = none := by
    intro i hi
    simp only [clear] at hi ⊢
    rw [if_pos hi]
  exact runGo_dichotomy fln limit (clear F s) ⟨chachaStream F seed, 0⟩ hinv htrue

/-- C3 (witness): the successful ScanLine run over `cfgA` ends on the
sweep path. -/
theorem run_true_observed_dichotomy_witness :
    (run ℚ fln0 solverA 0 5).1 = true
    ∧ ((∀ i < solverA.width * solverA.height, ∃ k,
          (run ℚ fln0 solverA 0 5).2.observed i = some k
          ∧ (run ℚ fln0 solverA 0 5).2.wave i k = true)
       ∨ (∀ i < solverA.width * solverA.height,
          (run ℚ fln0 solverA 0 5).2.observed i = none)) :=
  ⟨by decide, run_true_observed_dichotomy fln0 solverA 0 5 (by decide)⟩

end TileCollapse
